import Mathlib

/-!
# Verification of the InReach GRIB message decoder

A shallow embedding of `decode_grib_file` from
`src/InReach_Message_Decoder.ipynb` (cell `decode-function`), together with
models of the Python library functions it calls (`str.strip`, `str.split`,
`base64.b64decode` as implemented by the CPython 3.9 `binascii.a2b_base64`
in non-strict mode, and the `zlib` container format).

Python strings are modelled as lists of Unicode code points (`List Nat`);
byte strings as lists of naturals below 256.
-/

namespace InReach

/-- The set of code points stripped by the Python `str.strip()` call with no
argument (`Py_UNICODE_ISSPACE`): 0x09–0x0D, 0x1C–0x1F, space, NEL, NBSP,
Ogham space mark, U+2000–U+200A, LS, PS, NNBSP, MMSP, ideographic space. -/
def pyIsSpace (c : Nat) : Bool :=
  (9 ≤ c && c ≤ 13) || (28 ≤ c && c ≤ 32) || c = 133 || c = 160 || c = 5760 ||
  (8192 ≤ c && c ≤ 8202) || c = 8232 || c = 8233 || c = 8239 || c = 8287 || c = 12288

/-- Python `s.strip()`: drop leading and trailing whitespace. -/
def pyStrip (s : List Nat) : List Nat :=
  ((s.dropWhile pyIsSpace).reverse.dropWhile pyIsSpace).reverse

/-- Python `s.split("\n")`: split on every newline (code point 10); the
empty string yields `[""]`, and empty segments are kept. -/
def splitNl : List Nat → List (List Nat)
  | [] => [[]]
  | c :: cs =>
    if c = 10 then [] :: splitNl cs
    else (c :: (splitNl cs).headD []) :: (splitNl cs).tail

/-- Source line 54: the join, with empty separator, of
`lines[i] for i in range(len(lines)) if i % 3 == 1`,
with the Python indexing `lines[i]` modelled by `List.get?` so that an
out-of-range access would surface as `none` (Python `IndexError`). -/
def payloadOf (lines : List (List Nat)) : Option (List Nat) :=
  (((List.range lines.length).filter (fun i => i % 3 == 1)).mapM lines.get?).map List.flatten

/-- Specification-side payload selection with an index phase `k`: keeps an
element exactly when its absolute position is congruent to 1 mod 3. -/
def selK : Nat → List (List Nat) → List Nat
  | _, [] => []
  | k, a :: rest => (if k % 3 = 1 then a else []) ++ selK (k + 1) rest

/-- CPython `table_a2b_base64`: value of a code point in the standard
base64 alphabet, `none` outside it. -/
def b64valN (c : Nat) : Option Nat :=
  if 65 ≤ c ∧ c ≤ 90 then some (c - 65)
  else if 97 ≤ c ∧ c ≤ 122 then some (c - 71)
  else if 48 ≤ c ∧ c ≤ 57 then some (c + 4)
  else if c = 43 then some 62
  else if c = 47 then some 63
  else none

/-- The characters retained (not skipped) by the CPython non-strict
`a2b_base64`: the base64 alphabet and the pad character `'='` (61). -/
def keepB64 (c : Nat) : Bool := (b64valN c).isSome || c == 61

/-- CPython `binascii_find_valid`: the next character that is in the base64
alphabet or is the pad character. -/
def findValid : List Nat → Option Nat
  | [] => none
  | c :: rest => if keepB64 c then some c else findValid rest

/-- The decoding loop of the CPython 3.9 `binascii.a2b_base64` (non-strict mode,
the only mode `base64.b64decode` uses by default): characters outside the
alphabet are skipped; a pad `'='` terminates the stream when the quad
position is 3, or is 2 with another pad ahead; leftover bits at the end of
input are a padding error. -/
def a2b : List Nat → Nat → Nat → Nat → Except Unit (List Nat)
  | [], _, _, leftbits => if leftbits = 0 then .ok [] else .error ()
  | c :: rest, quadPos, leftchar, leftbits =>
    if c = 61 then
      if quadPos < 2 then a2b rest quadPos leftchar leftbits
      else if quadPos = 2 ∧ findValid rest ≠ some 61 then a2b rest quadPos leftchar leftbits
      else .ok []
    else
      match b64valN c with
      | none => a2b rest quadPos leftchar leftbits
      | some v =>
        if 8 ≤ leftbits + 6 then
          (a2b rest ((quadPos + 1) % 4) ((leftchar * 64 + v) % 2 ^ (leftbits - 2))
              (leftbits - 2)).map
            (fun bs => (leftchar * 64 + v) / 2 ^ (leftbits - 2) :: bs)
        else a2b rest ((quadPos + 1) % 4) (leftchar * 64 + v) (leftbits + 6)

/-- `base64.b64decode` applied to a Python `str`: the string is first
encoded as ASCII (failure for any code point ≥ 128), then fed to
`binascii.a2b_base64`. -/
def b64decode (payload : List Nat) : Except Unit (List Nat) :=
  if payload.all (fun c => c < 128) then a2b payload 0 0 0 else .error ()

/-- Adler-32 checksum of a byte sequence (RFC 1950), as verified by
`zlib.decompress` and emitted by `zlib.compress`. -/
def adler32 (bs : List Nat) : Nat :=
  (bs.foldl (fun s b => ((s.1 + b) % 65521, (s.2 + s.1 + b) % 65521)) (1, 0)).2 * 65536 +
    (bs.foldl (fun s b => ((s.1 + b) % 65521, (s.2 + s.1 + b) % 65521)) (1, 0)).1

/-- One stored (uncompressed) deflate block: header byte (BFINAL in bit 0,
BTYPE = 00), LEN little-endian, NLEN the complement of LEN, then the
raw data. Stored blocks start and end on byte boundaries, so the deflate
bit stream can be modelled at byte granularity. -/
def storedBlock (final : Bool) (d : List Nat) : List Nat :=
  (if final then 1 else 0) :: d.length % 256 :: d.length / 256 ::
    (65535 - d.length) % 256 :: (65535 - d.length) / 256 :: d

/-- The deflate stream produced by `zlib.compress(, level=0)`: the input cut
into stored blocks of at most 65535 bytes, the last one marked final. -/
def deflateStored (b : List Nat) : List Nat :=
  if _h : b.length ≤ 65535 then storedBlock true b
  else storedBlock false (b.take 65535) ++ deflateStored (b.drop 65535)
termination_by b.length
decreasing_by simp [List.length_drop]; omega

/-- Inflate a sequence of stored deflate blocks, returning the decoded data
and the bytes following the final block. The model covers the stored block
type (BTYPE = 00, the output of compression level 0); compressed block
types (fixed/dynamic Huffman) are outside the model and map to `.error`,
as does the reserved BTYPE = 11 and any truncation. `fuel` bounds the
number of blocks; callers pass at least `input length + 1`, which is always
sufficient since every block consumes at least five bytes. -/
def inflateStored : Nat → List Nat → Except Unit (List Nat × List Nat)
  | 0, _ => .error ()
  | _ + 1, [] => .error ()
  | fuel + 1, h :: rest =>
    if h / 2 % 4 ≠ 0 then .error ()
    else
      match rest with
      | llo :: lhi :: nlo :: nhi :: rest2 =>
        let len := llo + 256 * lhi
        if nlo + 256 * nhi ≠ 65535 - len then .error ()
        else if rest2.length < len then .error ()
        else if h % 2 = 1 then .ok (rest2.take len, rest2.drop len)
        else
          match inflateStored fuel (rest2.drop len) with
          | .error e => .error e
          | .ok (d2, r) => .ok (rest2.take len ++ d2, r)
      | _ => .error ()

/-- `zlib.decompress`: check the two-byte header (method 8, window ≤ 32K,
header checksum divisible by 31, no preset dictionary), inflate the deflate
stream, then verify the big-endian Adler-32 trailer; trailing bytes after
the trailer are ignored. -/
def zlib_decompress (bs : List Nat) : Except Unit (List Nat) :=
  match bs with
  | cmf :: flg :: rest =>
    if cmf % 16 ≠ 8 ∨ 7 < cmf / 16 then .error ()
    else if (cmf * 256 + flg) % 31 ≠ 0 then .error ()
    else if flg / 32 % 2 = 1 then .error ()
    else
      match inflateStored (rest.length + 1) rest with
      | .error _ => .error ()
      | .ok (data, trailer) =>
        match trailer with
        | a :: b :: c :: d :: _ =>
          if ((a * 256 + b) * 256 + c) * 256 + d = adler32 data then .ok data else .error ()
        | _ => .error ()
  | _ => .error ()

/-- `zlib.compress` at compression level 0: header 0x78 0x01, stored deflate
blocks, big-endian Adler-32 trailer. -/
def zlib_compress (b : List Nat) : List Nat :=
  120 :: 1 :: (deflateStored b ++
    [adler32 b / 2 ^ 24 % 256, adler32 b / 2 ^ 16 % 256, adler32 b / 2 ^ 8 % 256,
     adler32 b % 256])

/-- Code point of position `n` of the standard base64 alphabet. -/
def b64chrN (n : Nat) : Nat :=
  if n < 26 then 65 + n
  else if n < 52 then 97 + (n - 26)
  else if n < 62 then 48 + (n - 52)
  else if n = 62 then 43
  else 47

/-- Standard base64 encoding (`base64.b64encode`) of a byte sequence, as a
sequence of ASCII code points with `'='` (61) padding. -/
def b64encodeN : List Nat → List Nat
  | [] => []
  | [a] => [b64chrN (a / 4), b64chrN (a % 4 * 16), 61, 61]
  | [a, b] => [b64chrN (a / 4), b64chrN (a % 4 * 16 + b / 16), b64chrN (b % 16 * 4), 61]
  | a :: b :: c :: rest =>
    b64chrN (a / 4) :: b64chrN (a % 4 * 16 + b / 16) :: b64chrN (b % 16 * 4 + c / 64) ::
      b64chrN (c % 64) :: b64encodeN rest

/-- The file system visible to the decoder: an association list from paths
to byte contents, newest write first. -/
abbrev FS := List (String × List Nat)

/-- Opening the path in binary write mode followed by a single full
write: creates the path or
fully overwrites any previous content. -/
def FS.write (fs : FS) (p : String) (b : List Nat) : FS := (p, b) :: fs

/-- Reading a path back from the file system model. -/
def FS.read (fs : FS) (p : String) : Option (List Nat) :=
  (fs.find? (fun e => e.1 == p)).map (fun e => e.2)

/-- The failure kinds of `decode_grib_file`, per the stage that raises:
`formatError` is the explicit `ValueError` for an empty payload,
`decodeError` a failure inside `base64.b64decode`, `decompressError` a
`zlib.error`, and `indexError` an out-of-range `lines[i]` (shown below to
be unreachable). -/
inductive Err
  | indexError
  | formatError
  | decodeError
  | decompressError
deriving DecidableEq, Repr

/-- The success diagnostic printed by the source (line 64):
`Decoded GRIB file saved to: {output_path} ({len} bytes)`. -/
structure Report where
  path : String
  byteCount : Nat
deriving DecidableEq, Repr

/-- The code points of a Python string. -/
def strCodes (s : String) : List Nat := s.data.map Char.toNat

/-- Source line 53: `encoded_data.strip().split("\n")`. -/
def linesOf (raw : String) : List (List Nat) := splitNl (pyStrip (strCodes raw))

/-- The pure decoding pipeline of `decode_grib_file` (source lines 53–61):
payload selection, emptiness check, base64 decode, zlib decompress. -/
def decodedBytes (raw : String) : Except Err (List Nat) :=
  match payloadOf (linesOf raw) with
  | none => .error .indexError
  | some payload =>
    if payload = [] then .error .formatError
    else
      match b64decode payload with
      | .error _ => .error .decodeError
      | .ok zipped =>
        match zlib_decompress zipped with
        | .error _ => .error .decompressError
        | .ok grib => .ok grib

/-- `decode_grib_file(encoded_data, output_path)` from the source notebook:
on success it writes the decompressed bytes to `output_path`, prints the
path and byte count, and returns `output_path`; on failure it re-raises
after printing, with no file ever opened or written. -/
def decode_grib_file (encoded_data output_path : String) (fs : FS) :
    Except Err (String × Report) × FS :=
  match decodedBytes encoded_data with
  | .error e => (.error e, fs)
  | .ok grib =>
    (.ok (output_path, ⟨output_path, grib.length⟩), FS.write fs output_path grib)

/-- One three-line message part following the transmission convention:
a marker line `"0"`, the payload piece, a marker line `"0"`. -/
def group0 (p : List Nat) : List Nat := 48 :: 10 :: (p ++ [10, 48])

/-- Assemble payload pieces into the multi-part message text: 3-line groups
joined by newlines. -/
def assembleGroups : List (List Nat) → List Nat
  | [] => []
  | [p] => group0 p
  | p :: ps => group0 p ++ 10 :: assembleGroups ps

/-- The line sequence of an assembled message: marker, payload, marker per
group. -/
def groupLines : List (List Nat) → List (List Nat)
  | [] => []
  | p :: ps => [48] :: p :: [48] :: groupLines ps

/-- A Python string with the given code points. -/
def natsToString (l : List Nat) : String := String.mk (l.map Char.ofNat)

instance {ε α : Type} [DecidableEq ε] [DecidableEq α] : DecidableEq (Except ε α) := fun x y =>
  match x, y with
  | .ok a, .ok b =>
    match decEq a b with
    | isTrue h => isTrue (h ▸ rfl)
    | isFalse h => isFalse (fun hc => h (Except.ok.inj hc))
  | .error a, .error b =>
    match decEq a b with
    | isTrue h => isTrue (h ▸ rfl)
    | isFalse h => isFalse (fun hc => h (Except.error.inj hc))
  | .ok _, .error _ => isFalse (fun hc => Except.noConfusion hc)
  | .error _, .ok _ => isFalse (fun hc => Except.noConfusion hc)

/-! ## Lines: `strip` and `split` -/

theorem splitNl_append_cons (xs ys : List Nat) (hxs : ∀ c ∈ xs, c ≠ 10) :
    splitNl (xs ++ 10 :: ys) = xs :: splitNl ys := by
  induction xs with
  | nil => simp [splitNl]
  | cons x xs ih =>
    have hx : x ≠ 10 := hxs x (by simp)
    have ih' := ih (fun c hc => hxs c (by simp [hc]))
    simp [splitNl, hx, ih']

theorem splitNl_no_nl (xs : List Nat) (hxs : ∀ c ∈ xs, c ≠ 10) :
    splitNl xs = [xs] := by
  induction xs with
  | nil => rfl
  | cons x xs ih =>
    have hx : x ≠ 10 := hxs x (by simp)
    have ih' := ih (fun c hc => hxs c (by simp [hc]))
    simp [splitNl, hx, ih']

theorem dropWhile_eq_self_of_head (p : Nat → Bool) (l : List Nat)
    (h : ∀ x, l.head? = some x → p x = false) : l.dropWhile p = l := by
  cases l with
  | nil => rfl
  | cons a t => simp [List.dropWhile_cons, h a rfl]

theorem pyStrip_eq_self (l : List Nat) (h1 : ∀ x, l.head? = some x → pyIsSpace x = false)
    (h2 : ∀ x, l.getLast? = some x → pyIsSpace x = false) : pyStrip l = l := by
  unfold pyStrip
  rw [dropWhile_eq_self_of_head _ _ h1, dropWhile_eq_self_of_head, List.reverse_reverse]
  intro x hx
  rw [List.head?_reverse] at hx
  exact h2 x hx

/-! ## Payload selection -/

theorem mapM_get?_succ {α : Type} (L : List α) (a : α) (idxs : List Nat) :
    (idxs.map Nat.succ).mapM (a :: L).get? = idxs.mapM L.get? := by
  induction idxs with
  | nil => rfl
  | cons i idxs ih =>
    simp only [List.map_cons, List.mapM_cons, List.get?_cons_succ, ih]

theorem payload_master (L : List (List Nat)) (k : Nat) :
    (((List.range L.length).filter (fun i => (i + k) % 3 == 1)).mapM L.get?).map List.flatten =
      some (selK k L) := by
  induction L generalizing k with
  | nil => rfl
  | cons a rest ih =>
    rw [List.length_cons, List.range_succ_eq_map, List.filter_cons, List.filter_map]
    have hcomp : ((fun i => (i + k) % 3 == 1) ∘ Nat.succ) = fun i => (i + (k + 1)) % 3 == 1 := by
      funext i
      simp [Function.comp]
      omega
    rw [hcomp]
    by_cases hk : k % 3 = 1
    · have hk' : ((0 + k) % 3 == 1) = true := by simp; omega
      rw [if_pos hk']
      rw [List.mapM_cons, List.get?_cons_zero, mapM_get?_succ]
      have ih' := ih (k + 1)
      cases hmm : ((List.range rest.length).filter (fun i => (i + (k + 1)) % 3 == 1)).mapM
          rest.get? with
      | none => rw [hmm] at ih'; simp at ih'
      | some ls =>
        rw [hmm] at ih'
        simp at ih'
        simp [hmm, selK, hk, ← ih']
    · have hk' : ¬ (((0 + k) % 3 == 1) = true) := by simp; omega
      rw [if_neg hk']
      rw [mapM_get?_succ]
      rw [ih (k + 1)]
      simp [selK, hk]

theorem payloadOf_eq (L : List (List Nat)) : payloadOf L = some (selK 0 L) := by
  have h := payload_master L 0
  simpa [payloadOf] using h

theorem enum_master (L : List (List Nat)) (k : Nat) :
    (((L.enumFrom k).filter (fun q => q.1 % 3 == 1)).map Prod.snd).flatten = selK k L := by
  induction L generalizing k with
  | nil => simp [selK]
  | cons a rest ih =>
    rw [List.enumFrom_cons, List.filter_cons]
    by_cases hk : k % 3 = 1
    · have hk' : (((k, a).1 % 3 == 1) = true) := by simpa using hk
      rw [if_pos hk']
      simp [selK, hk, ih (k + 1)]
    · have hk' : ¬ (((k, a).1 % 3 == 1) = true) := by simpa using hk
      rw [if_neg hk']
      simp [selK, hk, ih (k + 1)]

theorem selK_add3 (L : List (List Nat)) (k : Nat) : selK (k + 3) L = selK k L := by
  induction L generalizing k with
  | nil => rfl
  | cons a rest ih =>
    have h3 : (k + 3) % 3 = k % 3 := by omega
    have : k + 3 + 1 = (k + 1) + 3 := by omega
    simp only [selK, h3, this, ih (k + 1)]

theorem selK_congr (L1 : List (List Nat)) : ∀ (L2 : List (List Nat)) (k : Nat),
    L1.length = L2.length →
    (∀ i, i < L1.length → (i + k) % 3 = 1 → L1.get? i = L2.get? i) →
    selK k L1 = selK k L2 := by
  induction L1 with
  | nil =>
    intro L2 k hlen _
    cases L2 with
    | nil => rfl
    | cons b t2 => simp at hlen
  | cons a t ih =>
    intro L2 k hlen hagree
    cases L2 with
    | nil => simp at hlen
    | cons b t2 =>
      have hlen' : t.length = t2.length := by simpa using hlen
      have htail : selK (k + 1) t = selK (k + 1) t2 := by
        apply ih t2 (k + 1) hlen'
        intro i hi hmod
        have := hagree (i + 1) (by simpa using Nat.succ_lt_succ hi) (by omega)
        simpa [List.get?_cons_succ] using this
      by_cases hk : k % 3 = 1
      · have hhead := hagree 0 (by simp) (by omega)
        simp only [List.get?_cons_zero, Option.some.injEq] at hhead
        simp [selK, hk, hhead, htail]
      · simp [selK, hk, htail]

/-! ## Base64 -/

theorem b64valN_pad : b64valN 61 = none := by decide

theorem b64valN_chr : ∀ n, n < 64 → b64valN (b64chrN n) = some n := by decide

theorem b64chrN_range (n : Nat) : 43 ≤ b64chrN n ∧ b64chrN n ≤ 122 := by
  unfold b64chrN
  split_ifs <;> omega

theorem a2b_step_low (c v : Nat) (hv : b64valN c = some v) (rest : List Nat) (q lc : Nat) :
    a2b (c :: rest) q lc 0 = a2b rest ((q + 1) % 4) (lc * 64 + v) 6 := by
  have hne : c ≠ 61 := by
    intro h
    rw [h, b64valN_pad] at hv
    exact Option.noConfusion hv
  conv_lhs => rw [a2b]
  simp only [if_neg hne, hv]
  norm_num

theorem a2b_step_hi (c v : Nat) (hv : b64valN c = some v) (rest : List Nat) (q lc lb : Nat)
    (hlb : 2 ≤ lb) :
    a2b (c :: rest) q lc lb =
      (a2b rest ((q + 1) % 4) ((lc * 64 + v) % 2 ^ (lb - 2)) (lb - 2)).map
        (fun bs => (lc * 64 + v) / 2 ^ (lb - 2) :: bs) := by
  have hne : c ≠ 61 := by
    intro h
    rw [h, b64valN_pad] at hv
    exact Option.noConfusion hv
  conv_lhs => rw [a2b]
  simp only [if_neg hne, hv]
  rw [if_pos (show 8 ≤ lb + 6 by omega)]

theorem a2b_skip (c : Nat) (rest : List Nat) (q lc lb : Nat) (hc : b64valN c = none)
    (hne : c ≠ 61) : a2b (c :: rest) q lc lb = a2b rest q lc lb := by
  conv_lhs => rw [a2b]
  simp only [if_neg hne, hc]

theorem a2b_pad_skip (rest : List Nat) (q lc lb : Nat) (hq : q < 2) :
    a2b (61 :: rest) q lc lb = a2b rest q lc lb := by
  conv_lhs => rw [a2b]
  rw [if_pos rfl, if_pos hq]

theorem a2b_pad_skip2 (rest : List Nat) (lc lb : Nat) (hnext : findValid rest ≠ some 61) :
    a2b (61 :: rest) 2 lc lb = a2b rest 2 lc lb := by
  conv_lhs => rw [a2b]
  rw [if_pos rfl, if_neg (by omega), if_pos ⟨rfl, hnext⟩]

theorem a2b_pad_end2 (rest : List Nat) (lc lb : Nat) (hnext : findValid rest = some 61) :
    a2b (61 :: rest) 2 lc lb = .ok [] := by
  conv_lhs => rw [a2b]
  rw [if_pos rfl, if_neg (by omega), if_neg (by simp [hnext])]

theorem a2b_pad_end3 (rest : List Nat) (lc lb : Nat) :
    a2b (61 :: rest) 3 lc lb = .ok [] := by
  conv_lhs => rw [a2b]
  rw [if_pos rfl, if_neg (by omega), if_neg (by simp)]

theorem a2b_quad (a b c : Nat) (ha : a < 256) (hb : b < 256) (hc : c < 256) (rest : List Nat) :
    a2b (b64chrN (a / 4) :: b64chrN (a % 4 * 16 + b / 16) :: b64chrN (b % 16 * 4 + c / 64) ::
        b64chrN (c % 64) :: rest) 0 0 0 =
      (a2b rest 0 0 0).map (fun bs => a :: b :: c :: bs) := by
  rw [a2b_step_low _ _ (b64valN_chr _ (by omega))]
  rw [a2b_step_hi _ _ (b64valN_chr _ (by omega)) _ _ _ _ (by omega)]
  rw [a2b_step_hi _ _ (b64valN_chr _ (by omega)) _ _ _ _ (by omega)]
  rw [a2b_step_hi _ _ (b64valN_chr _ (by omega)) _ _ _ _ (by omega)]
  norm_num
  have h2 : (a / 4 * 64 + (a % 4 * 16 + b / 16)) % 16 = b / 16 := by omega
  have h1 : (a / 4 * 64 + (a % 4 * 16 + b / 16)) / 16 = a := by omega
  simp only [h1, h2]
  have h4 : (b / 16 * 64 + (b % 16 * 4 + c / 64)) % 4 = c / 64 := by omega
  have h3 : (b / 16 * 64 + (b % 16 * 4 + c / 64)) / 4 = b := by omega
  simp only [h3, h4]
  have h5 : c / 64 * 64 + c % 64 = c := by omega
  simp only [h5, Nat.mod_one]
  cases a2b rest 0 0 0 <;> rfl

theorem a2b_tail1 (a : Nat) (ha : a < 256) :
    a2b [b64chrN (a / 4), b64chrN (a % 4 * 16), 61, 61] 0 0 0 = .ok [a] := by
  rw [a2b_step_low _ _ (b64valN_chr _ (by omega))]
  rw [a2b_step_hi _ _ (b64valN_chr _ (by omega)) _ _ _ _ (by omega)]
  norm_num
  rw [a2b_pad_end2 _ _ _ (by decide)]
  have h1 : (a / 4 * 64 + a % 4 * 16) / 16 = a := by omega
  simp [Except.map, h1]

theorem a2b_tail2 (a b : Nat) (ha : a < 256) (hb : b < 256) :
    a2b [b64chrN (a / 4), b64chrN (a % 4 * 16 + b / 16), b64chrN (b % 16 * 4), 61] 0 0 0 =
      .ok [a, b] := by
  rw [a2b_step_low _ _ (b64valN_chr _ (by omega))]
  rw [a2b_step_hi _ _ (b64valN_chr _ (by omega)) _ _ _ _ (by omega)]
  rw [a2b_step_hi _ _ (b64valN_chr _ (by omega)) _ _ _ _ (by omega)]
  norm_num
  rw [a2b_pad_end3]
  have h2 : (a / 4 * 64 + (a % 4 * 16 + b / 16)) % 16 = b / 16 := by omega
  have h1 : (a / 4 * 64 + (a % 4 * 16 + b / 16)) / 16 = a := by omega
  have h3 : (b / 16 * 64 + b % 16 * 4) / 4 = b := by omega
  simp [Except.map, h1, h2, h3]

theorem a2b_encode : ∀ (bs : List Nat), (∀ x ∈ bs, x < 256) →
    a2b (b64encodeN bs) 0 0 0 = .ok bs := by
  intro bs
  induction bs using b64encodeN.induct with
  | case1 => intro _; rfl
  | case2 a => intro h; exact a2b_tail1 a (h a (by simp))
  | case3 a b => intro h; exact a2b_tail2 a b (h a (by simp)) (h b (by simp))
  | case4 a b c rest ih =>
    intro h
    rw [show b64encodeN (a :: b :: c :: rest) =
      b64chrN (a / 4) :: b64chrN (a % 4 * 16 + b / 16) :: b64chrN (b % 16 * 4 + c / 64) ::
        b64chrN (c % 64) :: b64encodeN rest from rfl]
    rw [a2b_quad a b c (h a (by simp)) (h b (by simp)) (h c (by simp))]
    rw [ih (fun x hx => h x (by simp [hx]))]
    rfl

theorem b64encodeN_mem : ∀ (bs : List Nat), ∀ x ∈ b64encodeN bs, (43 ≤ x ∧ x ≤ 122) := by
  intro bs
  induction bs using b64encodeN.induct with
  | case1 => intro x hx; simp [b64encodeN] at hx
  | case2 a =>
    intro x hx
    simp [b64encodeN] at hx
    rcases hx with h | h | h <;> subst h <;> first | exact b64chrN_range _ | omega
  | case3 a b =>
    intro x hx
    simp [b64encodeN] at hx
    rcases hx with h | h | h | h <;> subst h <;> first | exact b64chrN_range _ | omega
  | case4 a b c rest ih =>
    intro x hx
    simp only [b64encodeN, List.mem_cons] at hx
    rcases hx with h | h | h | h | h
    · subst h; exact b64chrN_range _
    · subst h; exact b64chrN_range _
    · subst h; exact b64chrN_range _
    · subst h; exact b64chrN_range _
    · exact ih x h

theorem b64encodeN_ne_nil (bs : List Nat) (h : bs ≠ []) : b64encodeN bs ≠ [] := by
  match bs with
  | [] => exact absurd rfl h
  | [a] => simp [b64encodeN]
  | [a, b] => simp [b64encodeN]
  | a :: b :: c :: rest => simp [b64encodeN]

theorem a2b_pad_skip_gen (rest : List Nat) (q lc lb : Nat)
    (h : q < 2 ∨ (q = 2 ∧ findValid rest ≠ some 61)) :
    a2b (61 :: rest) q lc lb = a2b rest q lc lb := by
  rcases h with h | h
  · exact a2b_pad_skip rest q lc lb h
  · rcases h with ⟨rfl, h⟩
    exact a2b_pad_skip2 rest lc lb h

theorem a2b_pad_end_gen (rest : List Nat) (q lc lb : Nat) (h1 : ¬ q < 2)
    (h2 : ¬ (q = 2 ∧ findValid rest ≠ some 61)) :
    a2b (61 :: rest) q lc lb = .ok [] := by
  conv_lhs => rw [a2b]
  rw [if_pos rfl, if_neg h1, if_neg h2]

theorem findValid_filter (s : List Nat) : findValid (s.filter keepB64) = findValid s := by
  induction s with
  | nil => rfl
  | cons c rest ih =>
    by_cases h : keepB64 c
    · rw [List.filter_cons_of_pos h]
      rw [findValid, findValid, if_pos h, if_pos h]
    · rw [List.filter_cons_of_neg h]
      conv_rhs => rw [findValid]
      rw [if_neg h, ih]

theorem a2b_filter (s : List Nat) : ∀ q lc lb,
    a2b (s.filter keepB64) q lc lb = a2b s q lc lb := by
  induction s with
  | nil => intro q lc lb; rfl
  | cons c rest ih =>
    intro q lc lb
    by_cases h : keepB64 c
    · rw [List.filter_cons_of_pos h]
      by_cases hpad : c = 61
      · subst hpad
        by_cases hcase : q < 2 ∨ (q = 2 ∧ findValid rest ≠ some 61)
        · have hcase' : q < 2 ∨ (q = 2 ∧ findValid (rest.filter keepB64) ≠ some 61) := by
            rwa [findValid_filter]
          rw [a2b_pad_skip_gen _ _ _ _ hcase', a2b_pad_skip_gen _ _ _ _ hcase, ih]
        · have h1 : ¬ q < 2 := fun hlt => hcase (Or.inl hlt)
          have h2 : ¬ (q = 2 ∧ findValid rest ≠ some 61) := fun hc => hcase (Or.inr hc)
          have h2' : ¬ (q = 2 ∧ findValid (rest.filter keepB64) ≠ some 61) := by
            rw [findValid_filter]
            exact h2
          rw [a2b_pad_end_gen _ _ _ _ h1 h2', a2b_pad_end_gen _ _ _ _ h1 h2]
      · cases hv : b64valN c with
        | none =>
          exfalso
          simp [keepB64, hv, hpad] at h
        | some v =>
          conv_lhs => rw [a2b]
          conv_rhs => rw [a2b]
          rw [if_neg hpad, if_neg hpad, hv]
          simp only [ih]
    · rw [List.filter_cons_of_neg h]
      have hpad : c ≠ 61 := by
        intro hc
        subst hc
        simp [keepB64] at h
      have hval : b64valN c = none := by
        cases hv : b64valN c with
        | none => rfl
        | some v => exact absurd (by simp [keepB64, hv]) h
      rw [ih, a2b_skip _ _ _ _ _ hval hpad]

/-! ## Zlib -/

theorem adler_fold_lt (bs : List Nat) : ∀ (init : Nat × Nat), init.1 < 65521 → init.2 < 65521 →
    (bs.foldl (fun s b => ((s.1 + b) % 65521, (s.2 + s.1 + b) % 65521)) init).1 < 65521 ∧
    (bs.foldl (fun s b => ((s.1 + b) % 65521, (s.2 + s.1 + b) % 65521)) init).2 < 65521 := by
  induction bs with
  | nil => intro init h1 h2; exact ⟨h1, h2⟩
  | cons b rest ih =>
    intro init h1 h2
    simp only [List.foldl_cons]
    exact ih _ (Nat.mod_lt _ (by norm_num)) (Nat.mod_lt _ (by norm_num))

theorem adler32_lt (bs : List Nat) : adler32 bs < 4294967296 := by
  have h := adler_fold_lt bs (1, 0) (by norm_num) (by norm_num)
  unfold adler32
  omega

theorem deflateStored_length (b : List Nat) : b.length + 5 ≤ (deflateStored b).length := by
  induction b using deflateStored.induct with
  | case1 b hb =>
    rw [deflateStored, dif_pos hb]
    simp [storedBlock]
  | case2 b hb ih =>
    rw [deflateStored, dif_neg hb]
    simp only [storedBlock, List.length_append, List.length_cons, List.length_take,
      List.length_drop] at *
    omega

theorem inflate_deflate : ∀ (b : List Nat), ∀ (s : List Nat) (fuel : Nat),
    b.length + 1 ≤ fuel → inflateStored fuel (deflateStored b ++ s) = .ok (b, s) := by
  intro b
  induction b using deflateStored.induct with
  | case1 b hb =>
    intro s fuel hf
    obtain ⟨f, rfl⟩ : ∃ f, fuel = f + 1 := ⟨fuel - 1, by omega⟩
    rw [deflateStored, dif_pos hb]
    have hsb : storedBlock true b ++ s =
        1 :: b.length % 256 :: b.length / 256 :: (65535 - b.length) % 256 ::
          (65535 - b.length) / 256 :: (b ++ s) := by
      simp [storedBlock]
    rw [hsb, inflateStored]
    rw [if_neg (by norm_num)]
    have e1 : b.length % 256 + 256 * (b.length / 256) = b.length := by omega
    have e2 : (65535 - b.length) % 256 + 256 * ((65535 - b.length) / 256) =
        65535 - b.length := by omega
    simp only [e1, e2]
    rw [if_neg (by omega)]
    rw [if_neg (by simp only [List.length_append]; omega)]
    rw [if_pos (by norm_num)]
    rw [List.take_left, List.drop_left]
  | case2 b hb ih =>
    intro s fuel hf
    obtain ⟨f, rfl⟩ : ∃ f, fuel = f + 1 := ⟨fuel - 1, by omega⟩
    rw [deflateStored, dif_neg hb]
    have htl : (b.take 65535).length = 65535 := by simp; omega
    have hsb : (storedBlock false (b.take 65535) ++ deflateStored (b.drop 65535)) ++ s =
        0 :: 255 :: 255 :: 0 :: 0 :: (b.take 65535 ++ (deflateStored (b.drop 65535) ++ s)) := by
      simp [storedBlock, htl]
    rw [hsb, inflateStored]
    rw [if_neg (by norm_num)]
    have e1 : (255 : Nat) + 256 * 255 = 65535 := by norm_num
    simp only [e1]
    rw [if_neg (by norm_num)]
    rw [if_neg (by simp only [List.length_append, htl]; omega)]
    rw [if_neg (by norm_num)]
    rw [List.take_left' htl, List.drop_left' htl]
    rw [ih s f (by simp only [List.length_drop]; omega)]
    simp only [List.take_append_drop]

theorem zlib_roundtrip (b : List Nat) : zlib_decompress (zlib_compress b) = .ok b := by
  have hc : zlib_compress b = 120 :: 1 :: (deflateStored b ++
      [adler32 b / 2 ^ 24 % 256, adler32 b / 2 ^ 16 % 256, adler32 b / 2 ^ 8 % 256,
       adler32 b % 256]) := rfl
  rw [hc, zlib_decompress]
  rw [if_neg (by decide), if_neg (by decide), if_neg (by decide)]
  rw [inflate_deflate b _ _ (by
    have := deflateStored_length b
    simp only [List.length_append]
    omega)]
  have hA := adler32_lt b
  simp only []
  rw [if_pos (by
    simp only [show (2 : Nat) ^ 24 = 16777216 from rfl, show (2 : Nat) ^ 16 = 65536 from rfl,
      show (2 : Nat) ^ 8 = 256 from rfl]
    omega)]

theorem deflateStored_mem (b : List Nat) (hb : ∀ x ∈ b, x < 256) :
    ∀ x ∈ deflateStored b, x < 256 := by
  induction b using deflateStored.induct with
  | case1 b hbl =>
    intro x hx
    rw [deflateStored, dif_pos hbl] at hx
    have hsb : storedBlock true b = 1 :: b.length % 256 :: b.length / 256 ::
        (65535 - b.length) % 256 :: (65535 - b.length) / 256 :: b := rfl
    rw [hsb] at hx
    simp only [List.mem_cons] at hx
    rcases hx with h | h | h | h | h | h
    · omega
    · omega
    · omega
    · omega
    · omega
    · exact hb x h
  | case2 b hbl ih =>
    intro x hx
    rw [deflateStored, dif_neg hbl] at hx
    have htl : (b.take 65535).length = 65535 := by
      simp only [List.length_take]
      omega
    have hsb : storedBlock false (b.take 65535) = 0 :: 255 :: 255 :: 0 :: 0 :: b.take 65535 := by
      have h0 : storedBlock false (b.take 65535) = 0 :: (b.take 65535).length % 256 ::
          (b.take 65535).length / 256 :: (65535 - (b.take 65535).length) % 256 ::
          (65535 - (b.take 65535).length) / 256 :: b.take 65535 := rfl
      rw [h0, htl]
    have hb' : ∀ x ∈ b.drop 65535, x < 256 := fun x hx => hb x (List.drop_subset _ _ hx)
    rw [hsb] at hx
    simp only [List.mem_append, List.mem_cons] at hx
    rcases hx with (h | h | h | h | h | h) | h
    · omega
    · omega
    · omega
    · omega
    · omega
    · exact hb x (List.take_subset _ _ h)
    · exact ih hb' x h

theorem zlib_compress_mem (b : List Nat) (hb : ∀ x ∈ b, x < 256) :
    ∀ x ∈ zlib_compress b, x < 256 := by
  intro x hx
  simp only [zlib_compress, List.mem_cons, List.mem_append] at hx
  rcases hx with h | h | h | h
  · omega
  · omega
  · exact deflateStored_mem b hb x h
  · simp only [List.mem_cons, List.not_mem_nil, or_false] at h
    rcases h with h | h | h | h <;> omega

/-! ## Message assembly -/

theorem selK_three (L : List (List Nat)) : selK 3 L = selK 0 L := by
  have h := selK_add3 L 0
  simpa using h

theorem selK_groupLines : ∀ (pieces : List (List Nat)),
    selK 0 (groupLines pieces) = pieces.flatten := by
  intro pieces
  induction pieces with
  | nil => rfl
  | cons p ps ih =>
    show selK 0 ([48] :: p :: [48] :: groupLines ps) = (p :: ps).flatten
    simp [selK, selK_three, ih]

theorem assembleGroups_head? (p : List Nat) (ps : List (List Nat)) :
    (assembleGroups (p :: ps)).head? = some 48 := by
  cases ps with
  | nil => rfl
  | cons q qs => rfl

theorem assembleGroups_ne_nil (p : List Nat) (ps : List (List Nat)) :
    assembleGroups (p :: ps) ≠ [] := by
  intro h
  have := assembleGroups_head? p ps
  rw [h] at this
  exact Option.noConfusion this

theorem assembleGroups_getLast? : ∀ (ps : List (List Nat)) (p : List Nat),
    (assembleGroups (p :: ps)).getLast? = some 48 := by
  intro ps
  induction ps with
  | nil =>
    intro p
    show (group0 p).getLast? = some 48
    have h : group0 p = (48 :: 10 :: (p ++ [10])) ++ [48] := by
      simp [group0]
    rw [h, List.getLast?_concat]
  | cons q qs ih =>
    intro p
    show (group0 p ++ 10 :: assembleGroups (q :: qs)).getLast? = some 48
    rw [List.getLast?_append]
    have h : (10 :: assembleGroups (q :: qs)).getLast? = some 48 := by
      have h2 : 10 :: assembleGroups (q :: qs) = [10] ++ assembleGroups (q :: qs) := rfl
      rw [h2, List.getLast?_append, ih q]
      rfl
    rw [h]
    rfl

theorem splitNl_assembleGroups : ∀ (pieces : List (List Nat)),
    (∀ p ∈ pieces, ∀ c ∈ p, c ≠ 10) →
    pieces ≠ [] → splitNl (assembleGroups pieces) = groupLines pieces := by
  intro pieces
  induction pieces with
  | nil => intro _ h; exact absurd rfl h
  | cons p ps ih =>
    intro hno _
    have hp : ∀ c ∈ p, c ≠ 10 := hno p (by simp)
    have h48 : ∀ c ∈ ([48] : List Nat), c ≠ 10 := by decide
    cases ps with
    | nil =>
      have hform : assembleGroups [p] = [48] ++ 10 :: (p ++ 10 :: [48]) := by
        simp [assembleGroups, group0]
      rw [hform, splitNl_append_cons _ _ h48, splitNl_append_cons _ _ hp,
        splitNl_no_nl _ h48]
      rfl
    | cons q qs =>
      have hform : assembleGroups (p :: q :: qs) =
          [48] ++ 10 :: (p ++ 10 :: ([48] ++ 10 :: assembleGroups (q :: qs))) := by
        simp [assembleGroups, group0]
      rw [hform, splitNl_append_cons _ _ h48, splitNl_append_cons _ _ hp,
        splitNl_append_cons _ _ h48]
      rw [ih (fun x hx => hno x (by simp [hx])) (by simp)]
      rfl

theorem pyStrip_assembleGroups (p : List Nat) (ps : List (List Nat)) :
    pyStrip (assembleGroups (p :: ps)) = assembleGroups (p :: ps) := by
  apply pyStrip_eq_self
  · intro x hx
    rw [assembleGroups_head? p ps] at hx
    cases hx
    decide
  · intro x hx
    rw [assembleGroups_getLast? ps p] at hx
    cases hx
    decide

theorem charRoundTrip (c : Nat) (h : c < 55296) : (Char.ofNat c).toNat = c := by
  have hv : Nat.isValidChar c := Or.inl h
  unfold Char.ofNat
  rw [dif_pos hv]
  rfl

theorem strCodes_natsToString (l : List Nat) (h : ∀ c ∈ l, c < 55296) :
    strCodes (natsToString l) = l := by
  show (l.map Char.ofNat).map Char.toNat = l
  rw [List.map_map]
  conv_rhs => rw [← List.map_id l]
  apply List.map_congr_left
  intro c hc
  exact charRoundTrip c (h c hc)

theorem group0_mem (p : List Nat) : ∀ x ∈ group0 p, x = 48 ∨ x = 10 ∨ x ∈ p := by
  intro x hx
  simp only [group0, List.mem_cons, List.mem_append, List.not_mem_nil, or_false] at hx
  tauto

theorem assembleGroups_mem : ∀ (pieces : List (List Nat)), ∀ x ∈ assembleGroups pieces,
    x = 48 ∨ x = 10 ∨ ∃ p ∈ pieces, x ∈ p := by
  intro pieces
  induction pieces with
  | nil => intro x hx; exact absurd hx (List.not_mem_nil x)
  | cons p ps ih =>
    intro x hx
    cases ps with
    | nil =>
      rcases group0_mem p x hx with h | h | h
      · exact Or.inl h
      · exact Or.inr (Or.inl h)
      · exact Or.inr (Or.inr ⟨p, by simp, h⟩)
    | cons q qs =>
      rw [show assembleGroups (p :: q :: qs) = group0 p ++ 10 :: assembleGroups (q :: qs)
        from rfl] at hx
      rcases List.mem_append.1 hx with h | h
      · rcases group0_mem p x h with h | h | h
        · exact Or.inl h
        · exact Or.inr (Or.inl h)
        · exact Or.inr (Or.inr ⟨p, by simp, h⟩)
      · rcases List.mem_cons.1 h with h | h
        · exact Or.inr (Or.inl h)
        · rcases ih x h with h | h | ⟨r, hr, hxr⟩
          · exact Or.inl h
          · exact Or.inr (Or.inl h)
          · exact Or.inr (Or.inr ⟨r, by simp [hr], hxr⟩)

/-! ## Decoder-level helpers -/

theorem FS.read_write (fs : FS) (p : String) (b : List Nat) :
    FS.read (FS.write fs p b) p = some b := by
  simp [FS.read, FS.write, List.find?]

theorem decodedBytes_eq (raw : String) :
    decodedBytes raw =
      (if selK 0 (linesOf raw) = [] then .error .formatError
       else
         match b64decode (selK 0 (linesOf raw)) with
         | .error _ => .error .decodeError
         | .ok zipped =>
           match zlib_decompress zipped with
           | .error _ => .error .decompressError
           | .ok grib => .ok grib) := by
  unfold decodedBytes
  rw [payloadOf_eq]

theorem decode_formatError (raw path : String) (fs : FS)
    (h : selK 0 (linesOf raw) = []) :
    decode_grib_file raw path fs = (.error .formatError, fs) := by
  unfold decode_grib_file
  rw [decodedBytes_eq, if_pos h]

/-! ## Claims -/

/-- C1: on every successful call of `decode_grib_file`, the file written at
`output_path` contains exactly the bytes obtained by zlib-decompressing the
base64-decoding of the concatenated payload lines, the success report names
the path and the byte count, and the call returns `output_path`. -/
theorem c1_success_contents (raw path : String) (fs : FS) (ret : String × Report) (fs' : FS)
    (h : decode_grib_file raw path fs = (.ok ret, fs')) :
    ∃ zipped grib,
      b64decode (selK 0 (linesOf raw)) = .ok zipped ∧
      zlib_decompress zipped = .ok grib ∧
      FS.read fs' path = some grib ∧
      ret.1 = path ∧ ret.2 = ⟨path, grib.length⟩ := by
  unfold decode_grib_file at h
  cases hdb : decodedBytes raw with
  | error e => rw [hdb] at h; simp at h
  | ok grib =>
    rw [hdb] at h
    simp only [Prod.mk.injEq, Except.ok.injEq] at h
    obtain ⟨h1, h2⟩ := h
    rw [decodedBytes_eq] at hdb
    by_cases hsel : selK 0 (linesOf raw) = []
    · rw [if_pos hsel] at hdb; exact absurd hdb (by simp)
    · rw [if_neg hsel] at hdb
      cases hb : b64decode (selK 0 (linesOf raw)) with
      | error e => rw [hb] at hdb; simp at hdb
      | ok zipped =>
        rw [hb] at hdb
        simp only [] at hdb
        cases hz : zlib_decompress zipped with
        | error e => rw [hz] at hdb; simp at hdb
        | ok g =>
          rw [hz] at hdb
          simp only [Except.ok.injEq] at hdb
          subst hdb
          refine ⟨zipped, g, rfl, hz, ?_, ?_, ?_⟩
          · rw [← h2, FS.read_write]
          · rw [← h1]
          · rw [← h1]

/-- C1 witness: decoding the sample single-part message writes the four
bytes `GRIB` and reports path and size. -/
theorem c1_success_contents_witness :
    ∃ zipped grib,
      b64decode (selK 0 (linesOf "0\neAEBBAD7/0dSSUIC6gEl\n0")) = .ok zipped ∧
      zlib_decompress zipped = .ok grib ∧
      FS.read [("o.grb", [71, 82, 73, 66])] "o.grb" = some grib ∧
      (("o.grb", (⟨"o.grb", 4⟩ : Report)) : String × Report).1 = "o.grb" ∧
      (("o.grb", (⟨"o.grb", 4⟩ : Report)) : String × Report).2 = ⟨"o.grb", grib.length⟩ :=
  c1_success_contents "0\neAEBBAD7/0dSSUIC6gEl\n0" "o.grb" []
    ("o.grb", ⟨"o.grb", 4⟩) [("o.grb", [71, 82, 73, 66])] (by decide)

/-- C2: for every byte sequence `B`, compressing with zlib, base64-encoding,
splitting the base64 text into 3-line groups following the convention
(payload lines at positions congruent to 1 mod 3, surrounded by marker
lines), and decoding the assembled text yields exactly `B` as the written
output. -/
theorem c2_round_trip (B : List Nat) (hB : ∀ x ∈ B, x < 256) (pieces : List (List Nat))
    (hsplit : pieces.flatten = b64encodeN (zlib_compress B)) (path : String) (fs : FS) :
    decode_grib_file (natsToString (assembleGroups pieces)) path fs =
      (.ok (path, ⟨path, B.length⟩), FS.write fs path B) := by
  have hzne : zlib_compress B ≠ [] := by simp [zlib_compress]
  have hene : b64encodeN (zlib_compress B) ≠ [] := b64encodeN_ne_nil _ hzne
  have hpne : pieces ≠ [] := by
    intro h
    rw [h] at hsplit
    exact hene hsplit.symm
  obtain ⟨p, ps, rfl⟩ : ∃ p ps, pieces = p :: ps := by
    cases pieces with
    | nil => exact absurd rfl hpne
    | cons p ps => exact ⟨p, ps, rfl⟩
  have hmem : ∀ x ∈ (p :: ps).flatten, 43 ≤ x ∧ x ≤ 122 := by
    rw [hsplit]
    exact b64encodeN_mem _
  have hpiece : ∀ q ∈ p :: ps, ∀ c ∈ q, 43 ≤ c ∧ c ≤ 122 := by
    intro q hq c hc
    exact hmem c (List.mem_flatten.2 ⟨q, hq, hc⟩)
  have hno10 : ∀ q ∈ p :: ps, ∀ c ∈ q, c ≠ 10 := by
    intro q hq c hc
    have := hpiece q hq c hc
    omega
  have hasm : ∀ x ∈ assembleGroups (p :: ps), x < 55296 := by
    intro x hx
    rcases assembleGroups_mem _ x hx with h | h | ⟨q, hq, hxq⟩
    · omega
    · omega
    · have := hpiece q hq x hxq
      omega
  have hlines : linesOf (natsToString (assembleGroups (p :: ps))) = groupLines (p :: ps) := by
    unfold linesOf
    rw [strCodes_natsToString _ hasm, pyStrip_assembleGroups,
      splitNl_assembleGroups _ hno10 (by simp)]
  have hsel : selK 0 (linesOf (natsToString (assembleGroups (p :: ps)))) =
      b64encodeN (zlib_compress B) := by
    rw [hlines, selK_groupLines, hsplit]
  have hb64 : b64decode (b64encodeN (zlib_compress B)) = .ok (zlib_compress B) := by
    unfold b64decode
    rw [if_pos (by
      simp only [List.all_eq_true, decide_eq_true_eq]
      intro c hc
      have := b64encodeN_mem _ c hc
      omega)]
    exact a2b_encode _ (zlib_compress_mem B hB)
  unfold decode_grib_file
  rw [decodedBytes_eq, hsel, if_neg hene, hb64]
  simp only []
  rw [zlib_roundtrip]

/-- C2 witness: the round trip on the bytes of `GRIB` with a single 3-line
group. -/
theorem c2_round_trip_witness :
    decode_grib_file
        (natsToString (assembleGroups [b64encodeN (zlib_compress [71, 82, 73, 66])]))
        "w.grb" [] =
      (.ok ("w.grb", ⟨"w.grb", 4⟩), FS.write [] "w.grb" [71, 82, 73, 66]) :=
  c2_round_trip [71, 82, 73, 66] (by decide)
    [b64encodeN (zlib_compress [71, 82, 73, 66])] (by simp) "w.grb" []

/-- C3: the decoder builds the payload exactly by splitting the stripped
input into lines, selecting the lines at 0-based positions congruent to
1 mod 3 (counting marker lines), and concatenating them in order with no
separator. -/
theorem c3_payload_selection (raw : String) :
    payloadOf (linesOf raw) =
      some ((((linesOf raw).enum.filter (fun q => q.1 % 3 == 1)).map Prod.snd).flatten) := by
  rw [payloadOf_eq]
  have h := enum_master (linesOf raw) 0
  rw [show (linesOf raw).enum = (linesOf raw).enumFrom 0 from rfl, h]

/-- C4: whenever `decode_grib_file` fails, the file system is unchanged:
no file is created or overwritten. -/
theorem c4_no_write_on_failure (raw path : String) (fs : FS) (e : Err)
    (h : (decode_grib_file raw path fs).1 = .error e) :
    (decode_grib_file raw path fs).2 = fs := by
  unfold decode_grib_file at h ⊢
  cases hdb : decodedBytes raw with
  | error e2 => rfl
  | ok g =>
    rw [hdb] at h
    simp at h

/-- C4 witness: the empty input fails and leaves the file system empty. -/
theorem c4_no_write_on_failure_witness :
    (decode_grib_file "" "p.grb" []).2 = [] :=
  c4_no_write_on_failure "" "p.grb" [] .formatError (by decide)

/-- C5: when the concatenated payload is empty — in particular when every
payload-position line is empty — decode fails with `formatError` and does
not write the output file. -/
theorem c5_empty_payload (raw path : String) (fs : FS)
    (h : selK 0 (linesOf raw) = []) :
    decode_grib_file raw path fs = (.error .formatError, fs) :=
  decode_formatError raw path fs h

/-- C5 witness: an input whose payload-position lines are all empty. -/
theorem c5_empty_payload_witness :
    decode_grib_file "a\n\nb\nc\n\nd" "p.grb" [] = (.error .formatError, []) :=
  c5_empty_payload "a\n\nb\nc\n\nd" "p.grb" [] (by decide)

/-- C6 counterexample: an input whose payload contains `'!'` (code 33), a
character outside the base64 alphabet, for which decode nevertheless
succeeds and writes the output file — the CPython non-strict `a2b_base64`
discards such characters instead of rejecting them. -/
theorem c6_counterexample :
    33 ∈ selK 0 (linesOf "0\n!eAEBBAD7/0dSSUIC6gEl\n0") ∧ b64valN 33 = none ∧ (33 : Nat) ≠ 61 ∧
    decode_grib_file "0\n!eAEBBAD7/0dSSUIC6gEl\n0" "out.grb" [] =
      (.ok ("out.grb", ⟨"out.grb", 4⟩), [("out.grb", [71, 82, 73, 66])]) := by
  refine ⟨by decide, by decide, by decide, by decide⟩

/-- C6 amended: the base64 stage does not fail on characters outside the
alphabet; for an ASCII payload it discards every character that is neither
in the base64 alphabet nor the pad `'='`, decoding exactly as if those
characters were absent. A `DecodeError` arises only from a non-ASCII
payload or from invalid padding among the retained characters. -/
theorem c6_amended_discards (s : List Nat) (h : ∀ c ∈ s, c < 128) :
    b64decode s = b64decode (s.filter keepB64) := by
  unfold b64decode
  rw [if_pos (show s.all (fun c => c < 128) = true from by
        simp only [List.all_eq_true, decide_eq_true_eq]
        exact h),
    if_pos (show (s.filter keepB64).all (fun c => c < 128) = true from by
        simp only [List.all_eq_true, decide_eq_true_eq]
        exact fun c hc => h c (List.mem_of_mem_filter hc))]
  exact (a2b_filter s 0 0 0).symm

/-- C6 amended witness: a payload with an embedded `'!'` decodes exactly as
the payload with it removed. -/
theorem c6_amended_discards_witness :
    (∀ c ∈ strCodes "Q!UJD", c < 128) ∧
    b64decode (strCodes "Q!UJD") = b64decode ((strCodes "Q!UJD").filter keepB64) :=
  ⟨by decide, c6_amended_discards (strCodes "Q!UJD") (by decide)⟩

/-- C7 counterexample: a two-line input (trimmed line count 2, not a
multiple of 3) on which decode succeeds and writes the output file — the
code never checks the line count. -/
theorem c7_counterexample :
    (linesOf "0\neAEBBAD7/0dSSUIC6gEl").length % 3 ≠ 0 ∧
    decode_grib_file "0\neAEBBAD7/0dSSUIC6gEl" "out.grb" [] =
      (.ok ("out.grb", ⟨"out.grb", 4⟩), [("out.grb", [71, 82, 73, 66])]) := by
  refine ⟨by decide, by decide⟩

/-- C7 amended: decode fails with `formatError` exactly when the
concatenated payload (the lines at positions congruent to 1 mod 3) is
empty; a trimmed line count that is not a multiple of 3 does not by itself
cause a failure. -/
theorem c7_amended_formatError_iff (raw path : String) (fs : FS) :
    (decode_grib_file raw path fs).1 = .error .formatError ↔
      selK 0 (linesOf raw) = [] := by
  unfold decode_grib_file
  rw [decodedBytes_eq]
  by_cases h : selK 0 (linesOf raw) = []
  · rw [if_pos h]
    simp [h]
  · rw [if_neg h]
    constructor
    · intro hc
      exfalso
      cases hb : b64decode (selK 0 (linesOf raw)) with
      | error e =>
        rw [hb] at hc
        simp at hc
      | ok z =>
        rw [hb] at hc
        simp only [] at hc
        cases hz : zlib_decompress z with
        | error e =>
          rw [hz] at hc
          simp at hc
        | ok g =>
          rw [hz] at hc
          simp at hc
    · intro hc
      exact absurd hc h

/-- C8: the decoded output depends only on the payload-position lines: two
inputs with the same number of lines that agree on every line at a
position congruent to 1 mod 3 decode to the same result, whatever their
marker lines contain. -/
theorem c8_markers_ignored (raw1 raw2 : String)
    (hlen : (linesOf raw1).length = (linesOf raw2).length)
    (hagree : ∀ i, i < (linesOf raw1).length → i % 3 = 1 →
      (linesOf raw1).get? i = (linesOf raw2).get? i) :
    decodedBytes raw1 = decodedBytes raw2 := by
  have hsel : selK 0 (linesOf raw1) = selK 0 (linesOf raw2) := by
    apply selK_congr _ _ 0 hlen
    intro i hi hmod
    exact hagree i hi (by omega)
  rw [decodedBytes_eq, decodedBytes_eq, hsel]

/-- C8 witness: two inputs sharing the payload line but with different
marker lines decode identically. -/
theorem c8_markers_ignored_witness :
    decodedBytes "0\nQQ==\n0" = decodedBytes "7\nQQ==\nzz" :=
  c8_markers_ignored "0\nQQ==\n0" "7\nQQ==\nzz" (by decide) (by decide)

/-- C9: decoding is deterministic in the output bytes: if one call
succeeds, a second call on the same input (any output path, any prior file
system) also succeeds and writes byte-identical content. -/
theorem c9_deterministic (raw p1 p2 : String) (fs1 fs2 : FS) (r1 : String × Report)
    (fs1' : FS) (h : decode_grib_file raw p1 fs1 = (.ok r1, fs1')) :
    ∃ r2 fs2', decode_grib_file raw p2 fs2 = (.ok r2, fs2') ∧
      FS.read fs1' p1 = FS.read fs2' p2 := by
  unfold decode_grib_file at h ⊢
  cases hdb : decodedBytes raw with
  | error e =>
    rw [hdb] at h
    simp at h
  | ok g =>
    rw [hdb] at h
    simp only [Prod.mk.injEq] at h
    obtain ⟨h1, h2⟩ := h
    refine ⟨(p2, ⟨p2, g.length⟩), FS.write fs2 p2 g, rfl, ?_⟩
    rw [← h2, FS.read_write, FS.read_write]

/-- C9 witness: decoding the sample input twice to two different paths
yields the same stored bytes. -/
theorem c9_deterministic_witness :
    ∃ r2 fs2', decode_grib_file "0\neAEBBAD7/0dSSUIC6gEl\n0" "b.grb" [("x", [0])] =
        (.ok r2, fs2') ∧
      FS.read [("a.grb", [71, 82, 73, 66])] "a.grb" = FS.read fs2' "b.grb" :=
  c9_deterministic "0\neAEBBAD7/0dSSUIC6gEl\n0" "a.grb" "b.grb" [] [("x", [0])]
    ("a.grb", ⟨"a.grb", 4⟩) [("a.grb", [71, 82, 73, 66])] (by decide)

/-- C10: payload selection never accesses a line index out of range — the
`indexError` outcome is unreachable — and an input with fewer than two
lines after trimming has an empty payload and takes the no-payload error
path. -/
theorem c10_index_safety (raw path : String) (fs : FS) :
    (decode_grib_file raw path fs).1 ≠ .error .indexError ∧
    ((linesOf raw).length < 2 → decode_grib_file raw path fs = (.error .formatError, fs)) := by
  constructor
  · unfold decode_grib_file
    rw [decodedBytes_eq]
    by_cases h : selK 0 (linesOf raw) = []
    · rw [if_pos h]
      simp
    · rw [if_neg h]
      cases hb : b64decode (selK 0 (linesOf raw)) with
      | error e => simp
      | ok z =>
        cases hz : zlib_decompress z with
        | error e => simp [hz]
        | ok g => simp [hz]
  · intro hlt
    apply decode_formatError
    cases hL : linesOf raw with
    | nil => rfl
    | cons a t =>
      cases t with
      | nil => simp [selK]
      | cons b t2 =>
        rw [hL] at hlt
        exfalso
        simp only [List.length_cons] at hlt
        omega

/-- C10 witness: a one-line input takes the no-payload error path and never
the index error. -/
theorem c10_index_safety_witness :
    (decode_grib_file "x" "p.grb" []).1 ≠ .error .indexError ∧
    decode_grib_file "x" "p.grb" [] = (.error .formatError, []) :=
  ⟨(c10_index_safety "x" "p.grb" []).1, (c10_index_safety "x" "p.grb" []).2 (by decide)⟩

end InReach
